import Mathlib

/-!
Verification of the har2xss tool (src/main.go).

The repository holds two small Go programs sharing one idea:

* a dump-mode program (`printParam` / `printParamRecurse` / `print`) that
  lists every decodable request parameter of a HAR archive, and
* a correlation-mode program (`search` / `main`) that reads one HAR archive
  from stdin and reports request parameters reflected in response bodies.

Go strings are byte sequences, so values are modelled as `List Nat`
(each entry a byte).  The JSON layer models `encoding/json`'s `Unmarshal`
into `map[string]json.RawMessage`, `[]json.RawMessage` and `string`:
a raw message is the exact byte span of the sub-value, `null` unmarshals
into any of the three targets as a no-op success, and the whole input must
consist of a single JSON value surrounded only by whitespace.  The base64
layer models `base64.StdEncoding.DecodeString`: carriage returns and
newlines are ignored, the remaining length must be a multiple of four,
padding is only accepted at the end, and trailing bits are not checked.

One documented simplification: Go's JSON string unescaper replaces bytes
that are not valid UTF-8 with U+FFFD; this model passes such bytes through
unchanged.  All other behaviour is translated directly from the source.
-/

/-- ASCII bytes of a string literal (used only to build concrete inputs). -/
def ascii (s : String) : List Nat := s.data.map Char.toNat

/-- JSON whitespace bytes: space, tab, newline, carriage return. -/
def isWSByte (b : Nat) : Bool := b == 32 || b == 9 || b == 10 || b == 13

/-- Split a byte list into its leading JSON whitespace and the remainder. -/
def spanWS (s : List Nat) : List Nat × List Nat :=
  (s.takeWhile isWSByte, s.dropWhile isWSByte)

/-- Value of an ASCII hex digit, as in the Go `getu4` helper. -/
def hexVal (b : Nat) : Option Nat :=
  if 48 ≤ b ∧ b ≤ 57 then some (b - 48)
  else if 97 ≤ b ∧ b ≤ 102 then some (b - 87)
  else if 65 ≤ b ∧ b ≤ 70 then some (b - 55)
  else none

/-- UTF-8 encoding of a code point, as produced by Go's `utf8.EncodeRune`
for the code points reachable from JSON escape processing. -/
def utf8EncodeNat (n : Nat) : List Nat :=
  if n < 128 then [n]
  else if n < 2048 then [192 + n / 64, 128 + n % 64]
  else if n < 65536 then [224 + n / 4096, 128 + n / 64 % 64, 128 + n % 64]
  else [240 + n / 262144, 128 + n / 4096 % 64, 128 + n / 64 % 64, 128 + n % 64]

/-- One step of JSON string-content scanning: the loop body of Go's
string scanner and `unquoteBytes`, handling one passthrough byte, one
simple escape, or one `\u` escape (with surrogate-pair lookahead, a
valid pair consuming both escapes and a lone surrogate becoming U+FFFD).
Returns the consumed raw bytes, the emitted unescaped bytes, and the
remaining input; `none` on a closing quote, a control byte below 0x20,
an invalid escape, or exhausted input. -/
def scanStep : List Nat → Option (List Nat × List Nat × List Nat)
  | [] => none
  | 34 :: _ => none
  | 92 :: 117 :: a :: b :: c :: d :: rest =>
    match hexVal a, hexVal b, hexVal c, hexVal d with
    | some ha, some hb, some hc, some hd =>
      let rr := 4096 * ha + 256 * hb + 16 * hc + hd
      if 55296 ≤ rr ∧ rr < 57344 then
        match rest with
        | 92 :: 117 :: a2 :: b2 :: c2 :: d2 :: rest2 =>
          match hexVal a2, hexVal b2, hexVal c2, hexVal d2 with
          | some ha2, some hb2, some hc2, some hd2 =>
            let rr2 := 4096 * ha2 + 256 * hb2 + 16 * hc2 + hd2
            if rr < 56320 ∧ 56320 ≤ rr2 then
              some ([92, 117, a, b, c, d, 92, 117, a2, b2, c2, d2],
                    utf8EncodeNat (65536 + 1024 * (rr - 55296) + (rr2 - 56320)), rest2)
            else some ([92, 117, a, b, c, d], utf8EncodeNat 65533, rest)
          | _, _, _, _ => some ([92, 117, a, b, c, d], utf8EncodeNat 65533, rest)
        | _ => some ([92, 117, a, b, c, d], utf8EncodeNat 65533, rest)
      else some ([92, 117, a, b, c, d], utf8EncodeNat rr, rest)
    | _, _, _, _ => none
  | 92 :: e :: rest =>
    let esc : Option Nat :=
      if e == 34 then some 34
      else if e == 92 then some 92
      else if e == 47 then some 47
      else if e == 98 then some 8
      else if e == 102 then some 12
      else if e == 110 then some 10
      else if e == 114 then some 13
      else if e == 116 then some 9
      else none
    match esc with
    | some x => some ([92, e], [x], rest)
    | none => none
  | b :: rest => if b < 32 then none else some ([b], [b], rest)

/-- Scan a JSON string body (the bytes after the opening quote), fueled
so that the definition reduces in the kernel.  Returns the raw content
bytes (escapes untouched, closing quote excluded), the unescaped bytes,
and the rest of the input after the closing quote; `none` if the string
is unterminated or `scanStep` rejects a byte. -/
def scanString : Nat → List Nat → Option (List Nat × List Nat × List Nat)
  | 0, _ => none
  | _ + 1, 34 :: rest => some ([], [], rest)
  | f + 1, s =>
    match scanStep s with
    | some (con, em, rest1) =>
      match scanString f rest1 with
      | some (raw, u, fin) => some (con ++ raw, em ++ u, fin)
      | none => none
    | none => none

/-- Scan a JSON string body with enough fuel for any input (every step of
`scanString` consumes at least one byte). -/
def scanStr (s : List Nat) : Option (List Nat × List Nat × List Nat) :=
  scanString (s.length + 1) s

/-- ASCII decimal digit test. -/
def isDigit (b : Nat) : Bool := 48 ≤ b && b ≤ 57

/-- Integer part of a JSON number: `0`, or a nonzero digit followed by
digits, as in Go's scanner states. -/
def scanInt : List Nat → Option (List Nat × List Nat)
  | [] => none
  | b :: t =>
    if b == 48 then some ([48], t)
    else if 49 ≤ b ∧ b ≤ 57 then some (b :: t.takeWhile isDigit, t.dropWhile isDigit)
    else none

/-- Optional fraction part of a JSON number: a dot with at least one
digit; anything else leaves the input untouched (the caller then rejects
a stray leftover, matching Go's scanner error). -/
def scanFrac : List Nat → List Nat × List Nat
  | 46 :: u =>
    match u.takeWhile isDigit with
    | [] => ([], 46 :: u)
    | ds => (46 :: ds, u.dropWhile isDigit)
  | r1 => ([], r1)

/-- Optional exponent part of a JSON number: `e` or `E`, an optional
sign, and at least one digit; anything else leaves the input untouched. -/
def scanExp : List Nat → List Nat × List Nat
  | e :: u =>
    if e == 101 || e == 69 then
      match u with
      | sg :: u2 =>
        if sg == 43 || sg == 45 then
          match u2.takeWhile isDigit with
          | [] => ([], e :: u)
          | ds => (e :: sg :: ds, u2.dropWhile isDigit)
        else
          match u.takeWhile isDigit with
          | [] => ([], e :: u)
          | ds => (e :: ds, u.dropWhile isDigit)
      | [] => ([], e :: u)
    else ([], e :: u)
  | [] => ([], [])

/-- A JSON number after the optional minus sign: integer part, optional
fraction, optional exponent. -/
def scanNumTail (t : List Nat) : Option (List Nat × List Nat) :=
  match scanInt t with
  | some (ip, r1) =>
    match scanFrac r1 with
    | (fp, r2) =>
      match scanExp r2 with
      | (ep, r3) => some (ip ++ fp ++ ep, r3)
  | none => none

/-- Scan a JSON number following Go's grammar: optional minus, an integer
part that is `0` or starts with a nonzero digit, an optional fraction with
at least one digit, and an optional exponent with at least one digit.
Returns the raw number bytes and the rest.  A malformed fraction or
exponent simply ends the number; the caller then rejects the leftover. -/
def scanNumber (s : List Nat) : Option (List Nat × List Nat) :=
  match s with
  | 45 :: t =>
    match scanNumTail t with
    | some (np, rest) => some (45 :: np, rest)
    | none => none
  | t => scanNumTail t

mutual

/-- Skip one JSON value starting at the first byte of the value (no leading
whitespace).  Returns the exact raw byte span of the value and the rest,
mirroring how `encoding/json` delimits a `json.RawMessage`. -/
def skipValue : Nat → List Nat → Option (List Nat × List Nat)
  | 0, _ => none
  | f + 1, s =>
    match s with
    | 123 :: bs =>
      match spanWS bs with
      | (w, 125 :: rest) => some (123 :: (w ++ [125]), rest)
      | (w, bs1) =>
        match skipMembers f bs1 with
        | some (raw, _, rest) => some (123 :: (w ++ raw), rest)
        | none => none
    | 91 :: bs =>
      match spanWS bs with
      | (w, 93 :: rest) => some (91 :: (w ++ [93]), rest)
      | (w, bs1) =>
        match skipElems f bs1 with
        | some (raw, _, rest) => some (91 :: (w ++ raw), rest)
        | none => none
    | 34 :: bs =>
      match scanStr bs with
      | some (raw, _, rest) => some (34 :: (raw ++ [34]), rest)
      | none => none
    | 116 :: bs => if bs.take 3 = [114, 117, 101] then some ([116, 114, 117, 101], bs.drop 3) else none
    | 102 :: bs => if bs.take 4 = [97, 108, 115, 101] then some ([102, 97, 108, 115, 101], bs.drop 4) else none
    | 110 :: bs => if bs.take 3 = [117, 108, 108] then some ([110, 117, 108, 108], bs.drop 3) else none
    | s => scanNumber s

/-- Skip the members of a JSON object, starting at the opening quote of the
first key (an empty object is handled by `skipValue`).  Returns the raw
span up to and including the closing brace, the list of
(unescaped key, raw value span) pairs in source order, and the rest. -/
def skipMembers : Nat → List Nat → Option (List Nat × List (List Nat × List Nat) × List Nat)
  | 0, _ => none
  | f + 1, s =>
    match s with
    | 34 :: bs =>
      match scanStr bs with
      | some (kraw, kuq, bs1) =>
        match spanWS bs1 with
        | (w1, 58 :: bs3) =>
          match spanWS bs3 with
          | (w2, bs4) =>
            match skipValue f bs4 with
            | some (vraw, bs5) =>
              match spanWS bs5 with
              | (w3, 44 :: bs7) =>
                match spanWS bs7 with
                | (w4, bs8) =>
                  match skipMembers f bs8 with
                  | some (mraw, members, rest) =>
                    some (34 :: (kraw ++ [34] ++ w1 ++ [58] ++ w2 ++ vraw ++ w3 ++ [44] ++ w4 ++ mraw),
                          (kuq, vraw) :: members, rest)
                  | none => none
              | (w3, 125 :: rest) =>
                some (34 :: (kraw ++ [34] ++ w1 ++ [58] ++ w2 ++ vraw ++ w3 ++ [125]),
                      [(kuq, vraw)], rest)
              | _ => none
            | none => none
        | _ => none
      | none => none
    | _ => none

/-- Skip the elements of a JSON array, starting at the first byte of the
first element (an empty array is handled by `skipValue`).  Returns the raw
span up to and including the closing bracket, the raw element spans in
source order, and the rest. -/
def skipElems : Nat → List Nat → Option (List Nat × List (List Nat) × List Nat)
  | 0, _ => none
  | f + 1, s =>
    match skipValue f s with
    | some (vraw, s1) =>
      match spanWS s1 with
      | (w, 44 :: s2) =>
        match spanWS s2 with
        | (w2, s3) =>
          match skipElems f s3 with
          | some (eraw, elems, rest) => some (vraw ++ w ++ [44] ++ w2 ++ eraw, vraw :: elems, rest)
          | none => none
      | (w, 93 :: rest) => some (vraw ++ w ++ [93], [vraw], rest)
      | _ => none
    | none => none

end

/-- Whether the whole input is the literal `null` surrounded only by
whitespace.  `json.Unmarshal` treats `null` as a no-op success for every
target type used in the source. -/
def isNullTop (s : List Nat) : Bool :=
  match (spanWS s).2 with
  | 110 :: 117 :: 108 :: 108 :: rest => ((spanWS rest).2).isEmpty
  | _ => false

/-- Drop duplicate keys keeping the last occurrence of each, as filling a
Go map does.  (Go then iterates the map in unspecified order; this model
fixes the order of the surviving pairs.) -/
def dedupKeys : List (List Nat × List Nat) → List (List Nat × List Nat)
  | [] => []
  | (k, r) :: rest =>
    if rest.any (fun kv => kv.1 == k) then dedupKeys rest else (k, r) :: dedupKeys rest

/-- Parse a whole input as a JSON object: leading whitespace, the object,
and the rest.  Mirrors the object case of `json.Unmarshal` with a
`map[string]json.RawMessage` target. -/
def parseObjectCore (v : List Nat) : Option (List (List Nat × List Nat) × List Nat) :=
  match (spanWS v).2 with
  | 123 :: bs =>
    match spanWS bs with
    | (_, 125 :: rest) => some ([], rest)
    | (_, bs1) =>
      match skipMembers (bs1.length + 1) bs1 with
      | some (_, members, rest) => some (members, rest)
      | none => none
  | _ => none

/-- Parse a whole input as a JSON array: leading whitespace, the array,
and the rest.  Mirrors the array case of `json.Unmarshal` with a
`[]json.RawMessage` target. -/
def parseListCore (v : List Nat) : Option (List (List Nat) × List Nat) :=
  match (spanWS v).2 with
  | 91 :: bs =>
    match spanWS bs with
    | (_, 93 :: rest) => some ([], rest)
    | (_, bs1) =>
      match skipElems (bs1.length + 1) bs1 with
      | some (_, elems, rest) => some (elems, rest)
      | none => none
  | _ => none

/-- Model of `json.Unmarshal(value, &valueMap)` with
`valueMap : map[string]json.RawMessage`: succeeds on a whole-input JSON
object (returning its members, later duplicate keys winning) and on
`null` (returning the untouched empty map). -/
def jsonUnmarshalMap (v : List Nat) : Option (List (List Nat × List Nat)) :=
  if isNullTop v then some [] else
  match parseObjectCore v with
  | some (members, rest) => if ((spanWS rest).2).isEmpty then some (dedupKeys members) else none
  | none => none

/-- Model of `json.Unmarshal(value, &valueList)` with
`valueList : []json.RawMessage`: succeeds on a whole-input JSON array
(returning the raw element spans) and on `null` (returning the untouched
empty slice). -/
def jsonUnmarshalList (v : List Nat) : Option (List (List Nat)) :=
  if isNullTop v then some [] else
  match parseListCore v with
  | some (elems, rest) => if ((spanWS rest).2).isEmpty then some elems else none
  | none => none

/-- Model of `json.Unmarshal(value, &valueString)` with
`valueString : string`: succeeds on a whole-input JSON string literal
(returning the unescaped bytes) and on `null` (returning the untouched
initial empty string). -/
def jsonUnmarshalString (v : List Nat) : Option (List Nat) :=
  if isNullTop v then some [] else
  match (spanWS v).2 with
  | 34 :: bs =>
    match scanStr bs with
    | some (_, unq, rest) => if ((spanWS rest).2).isEmpty then some unq else none
    | none => none
  | _ => none

/-- Index of a byte in the standard base64 alphabet. -/
def b64Index (c : Nat) : Option Nat :=
  if 65 ≤ c ∧ c ≤ 90 then some (c - 65)
  else if 97 ≤ c ∧ c ≤ 122 then some (c - 71)
  else if 48 ≤ c ∧ c ≤ 57 then some (c + 4)
  else if c = 43 then some 62
  else if c = 47 then some 63
  else none

/-- Decode base64 four bytes at a time, as `base64.StdEncoding` does:
padding is only legal in the final quantum, and (matching Go's non-strict
default) trailing bits of a padded quantum are dropped unchecked. -/
def decodeQuanta : List Nat → Option (List Nat)
  | [] => some []
  | c1 :: c2 :: c3 :: c4 :: rest =>
    match b64Index c1, b64Index c2 with
    | some i1, some i2 =>
      if c3 == 61 then
        if c4 == 61 && rest.isEmpty then some [4 * i1 + i2 / 16] else none
      else
        match b64Index c3 with
        | some i3 =>
          if c4 == 61 then
            if rest.isEmpty then some [4 * i1 + i2 / 16, 16 * (i2 % 16) + i3 / 4] else none
          else
            match b64Index c4 with
            | some i4 =>
              match decodeQuanta rest with
              | some bs => some ((4 * i1 + i2 / 16) :: (16 * (i2 % 16) + i3 / 4) :: (64 * (i3 % 4) + i4) :: bs)
              | none => none
            | none => none
        | none => none
    | _, _ => none
  | _ => none

/-- Model of `base64.StdEncoding.DecodeString`: carriage returns and
newlines are ignored anywhere, then the remaining bytes are decoded in
quanta of four. -/
def base64Decode (s : List Nat) : Option (List Nat) :=
  decodeQuanta (s.filter (fun b => !(b == 10 || b == 13)))

/-- Byte of the standard base64 alphabet at a sextet index. -/
def b64Char (n : Nat) : Nat :=
  if n < 26 then 65 + n
  else if n < 52 then 71 + n
  else if n < 62 then n - 4
  else if n == 62 then 43
  else 47

/-- Standard base64 encoding with padding, as `base64.StdEncoding` emits. -/
def b64encode : List Nat → List Nat
  | [] => []
  | [b1] => [b64Char (b1 / 4), b64Char (16 * (b1 % 4)), 61, 61]
  | [b1, b2] => [b64Char (b1 / 4), b64Char (16 * (b1 % 4) + b2 / 16), b64Char (4 * (b2 % 16)), 61]
  | b1 :: b2 :: b3 :: rest =>
    b64Char (b1 / 4) :: b64Char (16 * (b1 % 4) + b2 / 16) ::
      b64Char (4 * (b2 % 16) + b3 / 64) :: b64Char (b3 % 64) :: b64encode rest

/-- Decimal digits of an array index, as `fmt.Sprintf` with a `d` verb
renders it in the array branch of `search`. -/
def natBytes (n : Nat) : List Nat := (Nat.toDigits 10 n).map Char.toNat

/-- The `KeyValue` struct of the correlation-mode program: a nested key
path and the value found there. -/
structure KeyValue where
  key : List (List Nat)
  value : List Nat
deriving DecidableEq, Repr

/-- Fueled body of the correlation-mode `search`: at each (key, value) the
four interpretations are attempted independently (JSON map, JSON list,
JSON string, base64), each success recursing, and the original pair is
always emitted last.  Channel emission order of the single producer
goroutine is kept as the list order. -/
def searchF : Nat → List (List Nat) → List Nat → List KeyValue
  | 0, _, _ => []
  | f + 1, key, value =>
    (match jsonUnmarshalMap value with
     | some members => members.flatMap (fun kv => searchF f (key ++ [kv.1]) kv.2)
     | none => []) ++
    (match jsonUnmarshalList value with
     | some elems => elems.enum.flatMap (fun iv => searchF f (key ++ [natBytes iv.1]) iv.2)
     | none => []) ++
    (match jsonUnmarshalString value with
     | some str => searchF f key str
     | none => []) ++
    (match base64Decode value with
     | some bs => if 0 < bs.length then searchF f key bs else []
     | none => []) ++
    [{ key := key, value := value }]

/-- The correlation-mode recursive key value `search`.  Every recursion
strictly shrinks the value, so fuel one more than the value length is
always enough (`searchF_eq_of_lt` below makes this precise). -/
def search (key : List (List Nat)) (value : List Nat) : List KeyValue :=
  searchF (value.length + 1) key value


/-- Split a URL at the first `://`, returning the scheme candidate and
the remainder. -/
def splitSchemeAuthority : List Nat → Option (List Nat × List Nat)
  | 58 :: 47 :: 47 :: rest => some ([], rest)
  | c :: rest =>
    match splitSchemeAuthority rest with
    | some (sch, r) => some (c :: sch, r)
    | none => none
  | [] => none

/-- Valid URL scheme as `url.Parse` checks it: a letter followed by
letters, digits, plus, minus or dot. -/
def validScheme : List Nat → Bool
  | [] => false
  | c :: rest =>
    ((65 <= c && c <= 90) || (97 <= c && c <= 122)) &&
      rest.all (fun b => (65 <= b && b <= 90) || (97 <= b && b <= 122) || (48 <= b && b <= 57) ||
        b == 43 || b == 45 || b == 46)

/-- The part of an authority after its last at sign (the host, with any
port kept, after stripping userinfo), as the Host field holds it. -/
def afterLastAt : List Nat → List Nat
  | [] => []
  | c :: rest => if rest.contains 64 || c == 64 then afterLastAt rest else c :: rest

/-- Model of the Host component `url.Parse` produces, for the
correlation-mode host filter: control bytes fail the parse, a URL without
`://` has an empty host, and otherwise the host is the authority section
up to the first `/`, `?` or `#`, with userinfo stripped and any port and
letter case kept. -/
def urlHost (u : List Nat) : Option (List Nat) :=
  if u.any (fun b => b < 32 || b == 127) then none
  else
    match splitSchemeAuthority u with
    | none => some []
    | some (sch, rest) =>
      if validScheme sch then
        some (afterLastAt (rest.takeWhile (fun b => b != 47 && b != 63 && b != 35)))
      else none

/-- One entry of the correlation-mode HAR struct: the request fields plus
the base64-encoded response body text. -/
structure CorrEntry where
  method : List Nat
  url : List Nat
  queryString : List (List Nat × List Nat)
  postParams : List (List Nat × List Nat)
  postText : List Nat
  responseText : List Nat
deriving DecidableEq, Repr

/-- All key values the per-entry producer goroutine sends: query
parameters under `["query", name]`, form parameters under
`["form", name]`, then the raw body under `["body"]`. -/
def entryLeaves (e : CorrEntry) : List KeyValue :=
  e.queryString.flatMap (fun nv => search [ascii "query", nv.1] nv.2) ++
  e.postParams.flatMap (fun nv => search [ascii "form", nv.1] nv.2) ++
  search [ascii "body"] e.postText

/-- Model of `strings.Contains`: the second string occurs contiguously
inside the first. -/
def containsSub (s sub : List Nat) : Bool := decide (sub <:+: s)

/-- One element of the correlation-mode output array. -/
structure Result where
  method : List Nat
  url : List Nat
  xss : List KeyValue
deriving DecidableEq, Repr

/-- Decode the entry's response body and filter the collected key values
by substring containment, building the entry's Result; a response body
that is not valid base64 is the panic at the response-decoding step. -/
def entryResponse (e : CorrEntry) : Except Unit Result :=
  match base64Decode e.responseText with
  | none => Except.error ()
  | some body =>
    Except.ok
      { method := e.method, url := e.url,
        xss := (entryLeaves e).filter (fun kv => containsSub body kv.value) }

/-- One iteration of the correlation-mode main loop over an entry:
if the domain allow-list is non-empty, parse the request URL (panicking
on failure) and skip the entry unless its host is listed; otherwise
decode the response and build the Result. -/
def processEntry (domains : List (List Nat)) (e : CorrEntry) : Except Unit (Option Result) :=
  if 0 < domains.length then
    match urlHost e.url with
    | none => Except.error ()
    | some h =>
      if domains.contains h then
        match entryResponse e with
        | Except.ok r => Except.ok (some r)
        | Except.error u => Except.error u
      else Except.ok none
  else
    match entryResponse e with
    | Except.ok r => Except.ok (some r)
    | Except.error u => Except.error u

/-- Decidable equality for run outcomes, so concrete runs can be checked
by evaluation. -/
instance exceptDecEq {e a : Type} [DecidableEq e] [DecidableEq a] : DecidableEq (Except e a) :=
  fun x y =>
  match x, y with
  | Except.ok v, Except.ok w =>
    if h : v = w then isTrue (by rw [h]) else isFalse (by intro hh; cases hh; exact h rfl)
  | Except.error v, Except.error w =>
    if h : v = w then isTrue (by rw [h]) else isFalse (by intro hh; cases hh; exact h rfl)
  | Except.ok _, Except.error _ => isFalse (by intro hh; cases hh)
  | Except.error _, Except.ok _ => isFalse (by intro hh; cases hh)


theorem spanWS_append (s : List Nat) : (spanWS s).1 ++ (spanWS s).2 = s :=
  List.takeWhile_append_dropWhile _ _

theorem utf8EncodeNat_length_le (n : Nat) : (utf8EncodeNat n).length ≤ 4 := by
  unfold utf8EncodeNat
  split
  · simp
  · split
    · simp
    · split <;> simp

theorem utf8EncodeNat_length_pos (n : Nat) : 0 < (utf8EncodeNat n).length := by
  unfold utf8EncodeNat
  split
  · simp
  · split
    · simp
    · split <;> simp

theorem scanStep_split (s : List Nat) :
    ∀ con em rest, scanStep s = some (con, em, rest) →
      con ++ rest = s ∧ em.length ≤ con.length ∧ 0 < con.length := by
  intro con em rest h
  unfold scanStep at h
  repeat' split at h
  all_goals try simp_all
  all_goals repeat' split at h
  all_goals try simp_all
  all_goals
    obtain ⟨hc, he, hr⟩ := h
    subst hc he hr
    refine ⟨by simp, ?_, by simp⟩
  all_goals first
    | exact le_trans (utf8EncodeNat_length_le _) (by norm_num)
    | simp

theorem scanString_split (f : Nat) (s : List Nat) :
    ∀ raw u rest, scanString f s = some (raw, u, rest) →
      raw ++ 34 :: rest = s ∧ u.length ≤ raw.length := by
  induction f, s using scanString.induct with
  | case1 x => intro raw u rest h; simp [scanString] at h
  | case2 n r0 =>
    intro raw u rest h
    simp only [scanString, Option.some.injEq, Prod.mk.injEq] at h
    obtain ⟨h1, h2, h3⟩ := h
    subst h1 h2 h3
    simp
  | case3 f s hq con em fin1 hstep raw2 u2 fin2 hrec ih =>
    intro raw u rest h
    simp only [scanString, hstep, hrec, Option.some.injEq, Prod.mk.injEq] at h
    obtain ⟨h1, h2, h3⟩ := h
    subst h1 h2 h3
    obtain ⟨i1, i2⟩ := ih _ _ _ hrec
    obtain ⟨s1, s2, s3⟩ := scanStep_split s con em fin1 hstep
    constructor
    · rw [List.append_assoc, i1, s1]
    · simp only [List.length_append]
      omega
  | case4 f s hq con em fin1 hstep hrec =>
    intro raw u rest h
    simp only [scanString, hstep, hrec] at h
    cases h
  | case5 f s hq hstep =>
    intro raw u rest h
    simp only [scanString, hstep] at h
    cases h


theorem scanInt_split (t : List Nat) :
    ∀ ip r1, scanInt t = some (ip, r1) → ip ++ r1 = t ∧ 0 < ip.length := by
  intro ip r1 h
  unfold scanInt at h
  repeat' split at h
  all_goals try simp_all
  all_goals
    obtain ⟨h1, h2⟩ := h
    subst h1 h2
    simp [List.takeWhile_append_dropWhile]

theorem scanFrac_split (r1 : List Nat) :
    (scanFrac r1).1 ++ (scanFrac r1).2 = r1 := by
  unfold scanFrac
  repeat' split
  all_goals simp_all [List.takeWhile_append_dropWhile]

theorem scanExp_split (r2 : List Nat) :
    (scanExp r2).1 ++ (scanExp r2).2 = r2 := by
  unfold scanExp
  repeat' split
  all_goals simp_all [List.takeWhile_append_dropWhile]

theorem scanNumTail_split (t : List Nat) :
    ∀ np rest, scanNumTail t = some (np, rest) → np ++ rest = t ∧ 0 < np.length := by
  intro np rest h
  unfold scanNumTail at h
  repeat' split at h
  all_goals try cases h
  rename_i x1 ip r1 hint x2 fp r2 hfrac x3 ep hexp
  obtain ⟨i1, i2⟩ := scanInt_split t _ _ hint
  have f1 := scanFrac_split r1
  have e1 := scanExp_split r2
  rw [hfrac] at f1
  rw [hexp] at e1
  simp only at f1 e1
  constructor
  · simp only [List.append_assoc]
    rw [e1, f1, i1]
  · simp only [List.length_append]
    omega

theorem scanNumber_split (s : List Nat) :
    ∀ raw rest, scanNumber s = some (raw, rest) →
      raw ++ rest = s ∧ 0 < raw.length := by
  intro raw rest h
  unfold scanNumber at h
  repeat' split at h
  all_goals try cases h
  · rename_i t np r hnt
    obtain ⟨n1, n2⟩ := scanNumTail_split t _ _ hnt
    refine ⟨?_, by simp⟩
    simpa using n1
  · rename_i t ht
    exact scanNumTail_split _ _ _ h

theorem scanStr_split (s : List Nat) :
    ∀ raw u rest, scanStr s = some (raw, u, rest) →
      raw ++ 34 :: rest = s ∧ u.length ≤ raw.length :=
  scanString_split _ s

theorem spanWS_eq {s w r : List Nat} (h : spanWS s = (w, r)) : w ++ r = s := by
  have hs := spanWS_append s
  rw [h] at hs
  simpa using hs

theorem take_drop_eq {s p : List Nat} {n : Nat} (h : s.take n = p) : p ++ s.drop n = s := by
  rw [← h]
  exact List.take_append_drop n s

set_option maxHeartbeats 1000000 in
theorem skip_split : ∀ f : Nat,
    (∀ s raw rest, skipValue f s = some (raw, rest) → raw ++ rest = s) ∧
    (∀ s raw ms rest, skipMembers f s = some (raw, ms, rest) →
      raw ++ rest = s ∧ ∀ kv ∈ ms, kv.2.length + 4 ≤ raw.length) ∧
    (∀ s raw es rest, skipElems f s = some (raw, es, rest) →
      raw ++ rest = s ∧ ∀ e ∈ es, e.length + 1 ≤ raw.length) := by
  intro f
  induction f with
  | zero =>
    refine ⟨?_, ?_, ?_⟩ <;> intro s raw
    · intro rest h; cases h
    · intro ms rest h; cases h
    · intro es rest h; cases h
  | succ f ih =>
    obtain ⟨ih1, ih2, ih3⟩ := ih
    refine ⟨?_, ?_, ?_⟩
    · intro s raw rest h
      unfold skipValue at h
      repeat' split at h
      all_goals try cases h
      · rename_i heq
        rw [← spanWS_eq heq]
        simp
      · rename_i hne heq1 x0 raw2 ms2 heq2
        rw [← spanWS_eq heq1, ← (ih2 _ _ _ _ heq2).1]
        simp
      · rename_i heq
        rw [← spanWS_eq heq]
        simp
      · rename_i hne heq1 x0 raw2 es2 heq2
        rw [← spanWS_eq heq1, ← (ih3 _ _ _ _ heq2).1]
        simp
      · rename_i x0 raw2 u2 heq
        rw [← (scanStr_split _ _ _ _ heq).1]
        simp
      · rename_i htk
        rw [← take_drop_eq htk]
        simp
      · rename_i htk
        rw [← take_drop_eq htk]
        simp
      · rename_i htk
        rw [← take_drop_eq htk]
        simp
      · exact (scanNumber_split _ _ _ h).1
    · intro s raw ms rest h
      unfold skipMembers at h
      repeat' split at h
      all_goals try cases h
      · rename_i x6 kraw ku fin hscan x5 w1 bs3 hsp1 x4 w2 bs4 hsp2 x3 vraw bs5 hskv x2 w3 bs7 hsp3 x1 w4 bs8 hsp4 x0 mraw ms2 hskm
        constructor
        · rw [← (scanStr_split _ _ _ _ hscan).1, ← spanWS_eq hsp1, ← spanWS_eq hsp2,
              ← ih1 _ _ _ hskv, ← spanWS_eq hsp3, ← spanWS_eq hsp4, ← (ih2 _ _ _ _ hskm).1]
          simp
        · intro kv hkv
          rcases List.mem_cons.1 hkv with hkv | hkv
          · subst hkv
            simp only [List.length_cons, List.length_append, List.length_nil]
            omega
          · have hb := (ih2 _ _ _ _ hskm).2 kv hkv
            simp only [List.length_cons, List.length_append, List.length_nil] at hb ⊢
            omega
      · rename_i x4 kraw ku fin hscan x3 w1 bs3 hsp1 x2 w2 bs4 hsp2 x1 vraw bs5 hskv x0 w3 hsp3
        constructor
        · rw [← (scanStr_split _ _ _ _ hscan).1, ← spanWS_eq hsp1, ← spanWS_eq hsp2,
              ← ih1 _ _ _ hskv, ← spanWS_eq hsp3]
          simp
        · intro kv hkv
          simp only [List.mem_singleton] at hkv
          subst hkv
          simp only [List.length_cons, List.length_append, List.length_nil]
          omega
    · intro s raw es rest h
      unfold skipElems at h
      repeat' split at h
      all_goals try cases h
      · rename_i x3 vraw s1 hskv x2 w s2 hsp1 x1 w2 s3 hsp2 x0 eraw es2 hske
        constructor
        · rw [← ih1 _ _ _ hskv, ← spanWS_eq hsp1, ← spanWS_eq hsp2, ← (ih3 _ _ _ _ hske).1]
          simp
        · intro e he
          rcases List.mem_cons.1 he with he | he
          · subst he
            simp only [List.length_cons, List.length_append, List.length_nil]
            omega
          · have hb := (ih3 _ _ _ _ hske).2 e he
            simp only [List.length_cons, List.length_append, List.length_nil] at hb ⊢
            omega
      · rename_i x1 vraw s1 hskv x0 w hsp
        constructor
        · rw [← ih1 _ _ _ hskv, ← spanWS_eq hsp]
          simp
        · intro e he
          simp only [List.mem_singleton] at he
          subst he
          simp only [List.length_cons, List.length_append, List.length_nil]
          omega

theorem dedupKeys_subset : ∀ l : List (List Nat × List Nat), ∀ kv ∈ dedupKeys l, kv ∈ l := by
  intro l
  induction l with
  | nil => intro kv h; cases h
  | cons p rest ih =>
    intro kv h
    unfold dedupKeys at h
    split at h
    · exact List.mem_cons_of_mem p (ih kv h)
    · rcases List.mem_cons.1 h with h | h
      · exact h ▸ List.mem_cons_self p rest
      · exact List.mem_cons_of_mem p (ih kv h)

theorem spanWS_drop_length {s r : List Nat} (h : (spanWS s).2 = r) : r.length ≤ s.length := by
  have hs := spanWS_append s
  rw [h] at hs
  have := congrArg List.length hs
  simp only [List.length_append] at this
  omega

theorem parseObjectCore_shrink {v : List Nat} {ms : List (List Nat × List Nat)} {rest : List Nat}
    (h : parseObjectCore v = some (ms, rest)) : ∀ kv ∈ ms, kv.2.length < v.length := by
  intro kv hkv
  unfold parseObjectCore at h
  repeat' split at h
  all_goals try cases h
  · cases hkv
  · rename_i x3 bs hv x2 w bs1 hne hsp x0 raw hskm
    obtain ⟨hm1, hm2⟩ := (skip_split (bs1.length + 1)).2.1 _ _ _ _ hskm
    have hb := hm2 kv hkv
    have h1 := spanWS_drop_length hv
    have h2 := spanWS_eq hsp
    have h3 := congrArg List.length hm1
    have h4 := congrArg List.length h2
    simp only [List.length_append, List.length_cons] at h1 h3 h4 ⊢
    omega

theorem parseListCore_shrink {v : List Nat} {es : List (List Nat)} {rest : List Nat}
    (h : parseListCore v = some (es, rest)) : ∀ e ∈ es, e.length < v.length := by
  intro e he
  unfold parseListCore at h
  repeat' split at h
  all_goals try cases h
  · cases he
  · rename_i x3 bs hv x2 w bs1 hne hsp x0 raw hske
    obtain ⟨hm1, hm2⟩ := (skip_split (bs1.length + 1)).2.2 _ _ _ _ hske
    have hb := hm2 e he
    have h1 := spanWS_drop_length hv
    have h2 := spanWS_eq hsp
    have h3 := congrArg List.length hm1
    have h4 := congrArg List.length h2
    simp only [List.length_append, List.length_cons] at h1 h3 h4 ⊢
    omega

theorem isNullTop_length {v : List Nat} (h : isNullTop v = true) : 4 ≤ v.length := by
  unfold isNullTop at h
  split at h
  · rename_i rest hv
    have := spanWS_drop_length hv
    simp only [List.length_cons] at this
    omega
  · cases h

theorem jsonUnmarshalMap_shrink {v : List Nat} {ms : List (List Nat × List Nat)}
    (h : jsonUnmarshalMap v = some ms) : ∀ kv ∈ ms, kv.2.length < v.length := by
  intro kv hkv
  unfold jsonUnmarshalMap at h
  split at h
  · simp only [Option.some.injEq] at h
    subst h
    cases hkv
  · split at h
    · split at h
      · rename_i x members rest hp hemp
        simp only [Option.some.injEq] at h
        subst h
        exact parseObjectCore_shrink hp kv (dedupKeys_subset members kv hkv)
      · cases h
    · cases h

theorem jsonUnmarshalList_shrink {v : List Nat} {es : List (List Nat)}
    (h : jsonUnmarshalList v = some es) : ∀ e ∈ es, e.length < v.length := by
  intro e he
  unfold jsonUnmarshalList at h
  split at h
  · simp only [Option.some.injEq] at h
    subst h
    cases he
  · split at h
    · split at h
      · rename_i x elems rest hp hemp
        simp only [Option.some.injEq] at h
        subst h
        exact parseListCore_shrink hp e he
      · cases h
    · cases h

theorem jsonUnmarshalString_shrink {v u : List Nat}
    (h : jsonUnmarshalString v = some u) : u.length < v.length := by
  unfold jsonUnmarshalString at h
  split at h
  · rename_i hnull
    simp only [Option.some.injEq] at h
    subst h
    have := isNullTop_length hnull
    simp only [List.length_nil]
    omega
  · split at h
    · rename_i x bs hv
      split at h
      · rename_i x2 raw unq rest hscan
        split at h
        · simp only [Option.some.injEq] at h
          subst h
          obtain ⟨hs1, hs2⟩ := scanStr_split _ _ _ _ hscan
          have h1 := spanWS_drop_length hv
          have h2 := congrArg List.length hs1
          simp only [List.length_append, List.length_cons] at h1 h2
          omega
        · cases h
      · cases h
    · cases h

theorem decodeQuanta_length : ∀ t bs, decodeQuanta t = some bs →
    bs.length < t.length ∨ (bs = [] ∧ t = []) := by
  intro t
  induction t using decodeQuanta.induct with
  | case1 =>
    intro bs h
    simp only [decodeQuanta, Option.some.injEq] at h
    subst h
    right
    exact ⟨rfl, rfl⟩
  | _ =>
    intro bs h
    unfold decodeQuanta at h
    repeat' split at h
    all_goals try cases h
    all_goals simp_all
    all_goals first
      | omega
      | (rename_i ih h1 h2 h3 h4 h5 h6
         rcases ih with hlt | ⟨he1, he2⟩
         · omega
         · subst he1 he2
           simp)
      | (rename_i hx h1 h2 h3 h4 h5 h6 h7
         exact absurd rfl (hx _ _ _ _ _ rfl rfl rfl rfl))

theorem base64Decode_shrink {v bs : List Nat}
    (h : base64Decode v = some bs) (hne : 0 < bs.length) : bs.length < v.length := by
  unfold base64Decode at h
  rcases decodeQuanta_length _ _ h with h1 | ⟨h1, h2⟩
  · calc bs.length < (v.filter (fun b => !(b == 10 || b == 13))).length := h1
      _ ≤ v.length := List.length_filter_le _ _
  · subst h1
    cases hne

theorem searchF_eq_of_lt : ∀ f g : Nat, ∀ (key : List (List Nat)) (value : List Nat),
    value.length < f → value.length < g → searchF f key value = searchF g key value := by
  intro f
  induction f with
  | zero => intro g key value h; omega
  | succ f ih =>
    intro g key value hf hg
    cases g with
    | zero => omega
    | succ g =>
      simp only [searchF]
      have hmap : (match jsonUnmarshalMap value with
          | some members => members.flatMap (fun kv => searchF f (key ++ [kv.1]) kv.2)
          | none => []) = (match jsonUnmarshalMap value with
          | some members => members.flatMap (fun kv => searchF g (key ++ [kv.1]) kv.2)
          | none => ([] : List KeyValue)) := by
        cases hm : jsonUnmarshalMap value with
        | none => rfl
        | some members =>
          simp only []
          refine List.flatMap_congr (fun kv hkv => ?_)
          have hs := jsonUnmarshalMap_shrink hm kv hkv
          exact ih g _ _ (by omega) (by omega)
      have hlist : (match jsonUnmarshalList value with
          | some elems => elems.enum.flatMap (fun iv => searchF f (key ++ [natBytes iv.1]) iv.2)
          | none => []) = (match jsonUnmarshalList value with
          | some elems => elems.enum.flatMap (fun iv => searchF g (key ++ [natBytes iv.1]) iv.2)
          | none => ([] : List KeyValue)) := by
        cases hl : jsonUnmarshalList value with
        | none => rfl
        | some elems =>
          simp only []
          refine List.flatMap_congr (fun iv hiv => ?_)
          have hs := jsonUnmarshalList_shrink hl iv.2 (List.snd_mem_of_mem_enum hiv)
          exact ih g _ _ (by omega) (by omega)
      have hstr : (match jsonUnmarshalString value with
          | some str => searchF f key str
          | none => []) = (match jsonUnmarshalString value with
          | some str => searchF g key str
          | none => ([] : List KeyValue)) := by
        cases hu : jsonUnmarshalString value with
        | none => rfl
        | some str =>
          simp only []
          have hs := jsonUnmarshalString_shrink hu
          exact ih g _ _ (by omega) (by omega)
      have hb64 : (match base64Decode value with
          | some bs => if 0 < bs.length then searchF f key bs else []
          | none => []) = (match base64Decode value with
          | some bs => if 0 < bs.length then searchF g key bs else []
          | none => ([] : List KeyValue)) := by
        cases hb : base64Decode value with
        | none => rfl
        | some bs =>
          simp only []
          by_cases hlen : 0 < bs.length
          · simp only [if_pos hlen]
            have hs := base64Decode_shrink hb hlen
            exact ih g _ _ (by omega) (by omega)
          · simp only [if_neg hlen]
      rw [hmap, hlist, hstr, hb64]

theorem search_eq (key : List (List Nat)) (value : List Nat) :
    search key value =
    (match jsonUnmarshalMap value with
     | some members => members.flatMap (fun kv => search (key ++ [kv.1]) kv.2)
     | none => []) ++
    (match jsonUnmarshalList value with
     | some elems => elems.enum.flatMap (fun iv => search (key ++ [natBytes iv.1]) iv.2)
     | none => []) ++
    (match jsonUnmarshalString value with
     | some str => search key str
     | none => []) ++
    (match base64Decode value with
     | some bs => if 0 < bs.length then search key bs else []
     | none => []) ++
    [{ key := key, value := value }] := by
  unfold search
  conv_lhs => rw [searchF]
  have h1 : (match jsonUnmarshalMap value with
      | some members => members.flatMap (fun kv => searchF value.length (key ++ [kv.1]) kv.2)
      | none => []) = (match jsonUnmarshalMap value with
      | some members => members.flatMap (fun kv => searchF (kv.2.length + 1) (key ++ [kv.1]) kv.2)
      | none => ([] : List KeyValue)) := by
    cases hm : jsonUnmarshalMap value with
    | none => rfl
    | some members =>
      simp only []
      refine List.flatMap_congr (fun kv hkv => ?_)
      exact searchF_eq_of_lt _ _ _ _ (jsonUnmarshalMap_shrink hm kv hkv) (by omega)
  have h2 : (match jsonUnmarshalList value with
      | some elems => elems.enum.flatMap (fun iv => searchF value.length (key ++ [natBytes iv.1]) iv.2)
      | none => []) = (match jsonUnmarshalList value with
      | some elems => elems.enum.flatMap (fun iv => searchF (iv.2.length + 1) (key ++ [natBytes iv.1]) iv.2)
      | none => ([] : List KeyValue)) := by
    cases hl : jsonUnmarshalList value with
    | none => rfl
    | some elems =>
      simp only []
      refine List.flatMap_congr (fun iv hiv => ?_)
      exact searchF_eq_of_lt _ _ _ _
        (jsonUnmarshalList_shrink hl iv.2 (List.snd_mem_of_mem_enum hiv)) (by omega)
  have h3 : (match jsonUnmarshalString value with
      | some str => searchF value.length key str
      | none => []) = (match jsonUnmarshalString value with
      | some str => searchF (str.length + 1) key str
      | none => ([] : List KeyValue)) := by
    cases hu : jsonUnmarshalString value with
    | none => rfl
    | some str =>
      simp only []
      exact searchF_eq_of_lt _ _ _ _ (jsonUnmarshalString_shrink hu) (by omega)
  have h4 : (match base64Decode value with
      | some bs => if 0 < bs.length then searchF value.length key bs else []
      | none => []) = (match base64Decode value with
      | some bs => if 0 < bs.length then searchF (bs.length + 1) key bs else []
      | none => ([] : List KeyValue)) := by
    cases hb : base64Decode value with
    | none => rfl
    | some bs =>
      simp only []
      by_cases hlen : 0 < bs.length
      · simp only [if_pos hlen]
        exact searchF_eq_of_lt _ _ _ _ (base64Decode_shrink hb hlen) (by omega)
      · simp only [if_neg hlen]
  rw [h1, h2, h3, h4]

/-! ### Membership lemmas for the correlation-mode decoder -/

theorem search_self_mem (p : List (List Nat)) (v : List Nat) :
    ({ key := p, value := v } : KeyValue) ∈ search p v := by
  rw [search_eq]
  simp

theorem search_b64_sub {v bs : List Nat}
    (hb : base64Decode v = some bs) (hlen : 0 < bs.length) (p : List (List Nat)) :
    ∀ x ∈ search p bs, x ∈ search p v := by
  intro x hx
  rw [search_eq]
  simp only [hb, List.mem_append, if_pos hlen]
  exact Or.inl (Or.inr hx)

/-! ### Base64 round-trip -/

theorem b64Char_props (x : Nat) : b64Char x ≠ 10 ∧ b64Char x ≠ 13 ∧ b64Char x ≠ 61 := by
  unfold b64Char
  repeat' split
  all_goals refine ⟨by omega, by omega, by omega⟩

theorem b64Index_b64Char {x : Nat} (hx : x < 64) : b64Index (b64Char x) = some x := by
  interval_cases x <;> decide

theorem b64encode_no_newlines : ∀ s : List Nat, ∀ c ∈ b64encode s, !(c == 10 || c == 13) := by
  intro s
  induction s using b64encode.induct with
  | case1 => intro c hc; cases hc
  | case2 b1 =>
    intro c hc
    unfold b64encode at hc
    have h1 := b64Char_props (b1 / 4)
    have h2 := b64Char_props (16 * (b1 % 4))
    simp only [List.mem_cons, List.mem_singleton] at hc
    rcases hc with h | h | h | h | h
    all_goals simp_all
    all_goals omega
  | case3 b1 b2 =>
    intro c hc
    unfold b64encode at hc
    have h1 := b64Char_props (b1 / 4)
    have h2 := b64Char_props (16 * (b1 % 4) + b2 / 16)
    have h3 := b64Char_props (4 * (b2 % 16))
    simp only [List.mem_cons, List.mem_singleton] at hc
    rcases hc with h | h | h | h | h
    all_goals simp_all
    all_goals omega
  | case4 b1 b2 b3 rest ih =>
    intro c hc
    unfold b64encode at hc
    have h1 := b64Char_props (b1 / 4)
    have h2 := b64Char_props (16 * (b1 % 4) + b2 / 16)
    have h3 := b64Char_props (4 * (b2 % 16) + b3 / 64)
    have h4 := b64Char_props (b3 % 64)
    simp only [List.mem_cons] at hc
    rcases hc with h | h | h | h | h
    · simp_all
    · simp_all
    · simp_all
    · simp_all
    · exact ih c h

theorem decodeQuanta_encode : ∀ s : List Nat, (∀ b ∈ s, b < 256) →
    decodeQuanta (b64encode s) = some s := by
  intro s
  induction s using b64encode.induct with
  | case1 => intro hb; rfl
  | case2 b1 =>
    intro hb
    have h1 : b1 < 256 := hb b1 (List.mem_singleton.2 rfl)
    unfold b64encode decodeQuanta
    rw [b64Index_b64Char (by omega), b64Index_b64Char (by omega)]
    simp only []
    have : b1 = 4 * (b1 / 4) + 16 * (b1 % 4) / 16 := by omega
    simp
    omega
  | case3 b1 b2 =>
    intro hb
    have h1 : b1 < 256 := hb b1 (by simp)
    have h2 : b2 < 256 := hb b2 (by simp)
    unfold b64encode decodeQuanta
    rw [b64Index_b64Char (by omega), b64Index_b64Char (by omega), b64Index_b64Char (by omega)]
    have hne := (b64Char_props (4 * (b2 % 16))).2.2
    simp only [Nat.reduceEqDiff, beq_iff_eq, hne, if_false]
    simp [hne]
    constructor <;> omega
  | case4 b1 b2 b3 rest ih =>
    intro hb
    have h1 : b1 < 256 := hb b1 (by simp)
    have h2 : b2 < 256 := hb b2 (by simp)
    have h3 : b3 < 256 := hb b3 (by simp)
    have hrest : ∀ b ∈ rest, b < 256 := fun b hbm => hb b (by simp [hbm])
    unfold b64encode decodeQuanta
    rw [b64Index_b64Char (by omega), b64Index_b64Char (by omega), b64Index_b64Char (by omega),
        b64Index_b64Char (by omega)]
    have hne3 := (b64Char_props (4 * (b2 % 16) + b3 / 64)).2.2
    have hne4 := (b64Char_props (b3 % 64)).2.2
    simp only [beq_iff_eq, hne3, hne4, if_false]
    rw [ih hrest]
    simp [hne3, hne4]
    refine ⟨by omega, by omega, by omega⟩

theorem base64Decode_encode {s : List Nat} (hb : ∀ b ∈ s, b < 256) :
    base64Decode (b64encode s) = some s := by
  unfold base64Decode
  rw [List.filter_eq_self.2 (b64encode_no_newlines s)]
  exact decodeQuanta_encode s hb

/-! ### Key prefix invariant -/

theorem search_empty (p : List (List Nat)) : search p [] = [{ key := p, value := [] }] := by
  rw [search_eq]
  rfl

/-- C4: feeding the standard base64 encoding of any byte string to the
decoder yields, among its outputs, a leaf with that byte string as value
at the same path (stated for arbitrary byte strings, hence in particular
for every printable string). -/
theorem search_base64_roundtrip_leaf :
    ∀ (p : List (List Nat)) (s : List Nat), (∀ b ∈ s, b < 256) →
      ({ key := p, value := s } : KeyValue) ∈ search p (b64encode s) := by
  intro p s hb
  by_cases hemp : s = []
  · subst hemp
    show ({ key := p, value := [] } : KeyValue) ∈ search p []
    rw [search_empty]
    simp
  · have hlen : 0 < s.length := List.length_pos.2 hemp
    exact search_b64_sub (base64Decode_encode hb) hlen p _ (search_self_mem p s)

/-- Witness for C4: the base64 encoding of a concrete printable string
decodes back to a leaf with that string. -/
theorem search_base64_roundtrip_leaf_witness :
    ({ key := [ascii "k"], value := ascii "hello" } : KeyValue)
      ∈ search [ascii "k"] (b64encode (ascii "hello")) :=
  search_base64_roundtrip_leaf [ascii "k"] (ascii "hello") (by decide)

/-- C5 (the claim is right, the code omits the guard): at a concrete
entry whose query parameter has the empty string as value and whose
response body decodes to the non-empty text `hello`, the matcher includes
the empty-valued leaf in the reported xss list, because
`strings.Contains` holds trivially for the empty substring. -/
theorem matcher_reports_empty_leaf :
    ∃ r : Result,
      processEntry [] { method := ascii "GET", url := ascii "http://a/", queryString := [(ascii "a", [])], postParams := [], postText := [], responseText := ascii "aGVsbG8=" } = Except.ok (some r) ∧
      ({ key := [ascii "query", ascii "a"], value := [] } : KeyValue) ∈ r.xss ∧
      base64Decode (ascii "aGVsbG8=") = some (ascii "hello") ∧
      (ascii "hello").length ≠ 0 := by
  refine ⟨{ method := ascii "GET", url := ascii "http://a/", xss := [{ key := [ascii "query", ascii "a"], value := [] }, { key := [ascii "body"], value := [] }] }, ?_, ?_, ?_, ?_⟩ <;> decide

/-- C10: the host allow-list is compared by exact, case-sensitive string
equality against the parsed URL's host including any port: a request to
`example.com:8080` produces no Result when only `example.com` is allowed,
and neither does a request to `Example.com` (even though the response
body contains the parameter value in the first case). -/
theorem host_allowlist_exact_match_including_port :
    urlHost (ascii "http://example.com:8080/a") = some (ascii "example.com:8080") ∧
    processEntry [ascii "example.com"] { method := ascii "GET", url := ascii "http://example.com:8080/a", queryString := [(ascii "a", ascii "v")], postParams := [], postText := [], responseText := ascii "dg==" } = Except.ok none ∧
    processEntry [ascii "example.com"] { method := ascii "GET", url := ascii "http://Example.com/", queryString := [], postParams := [], postText := [], responseText := [] } = Except.ok none := by
  refine ⟨by decide, by decide, by decide⟩
